import Mathlib

/-!
# Verification of the `output string` codec (mm0-rs `elab/inout.rs`)

A shallow embedding of the string-output subsystem of the mm0-rs elaborator:
the segment builder used for `scons` alias verification, the registry
resolver (`new_string_handler`), and the output-time evaluator
(`write_node` / `write_output_string` / `eval_string` / `run_output`),
together with theorems about the behaviour of these functions.

Bytes and nibbles are modelled as `Nat` with explicit `% 256` where the
Rust `u8` arithmetic could overflow.  The byte sinks (`Vec<u8>` and the
`impl io::Write` passed to `run_output`) are modelled as pure `List Nat`
accumulators, so no IO error can occur.  Rust functions mutating a
`&mut StringWriter` and returning `Result<(), OutputError>` are modelled
as functions returning the updated writer paired with an optional error,
so that bytes already written when an error occurs remain observable,
exactly as they remain written in the real sink.
-/

namespace MM0Inout

/-- Sort identifiers: indices into `Environment.sorts`. -/
abbrev SortID := Nat

/-- Term identifiers: indices into `Environment.terms`. -/
abbrev TermID := Nat

/-- Modelled from the spec: the `Type` of a bound variable or term argument
in the logical environment (environment code is outside the excerpt).
`inout.rs` only ever matches `Type::Reg(sort, deps)`. -/
inductive EType where
  | Bound (s : SortID)
  | Reg (s : SortID) (deps : Nat)
deriving DecidableEq

mutual

/-- An expression node (`ExprNode`): a reference to a bound variable or heap
slot by index, a dummy variable, or a term application.  The payloads of
`Dummy` are never read by `inout.rs` and are omitted.  The children of an
application are a bespoke list type (`ExprNodeList`, isomorphic to
`List ExprNode`) so that the evaluators below are plain mutual structural
recursions. -/
inductive ExprNode where
  | Ref (i : Nat)
  | Dummy
  | App (t : TermID) (ns : ExprNodeList)

/-- The children of an application node. -/
inductive ExprNodeList where
  | nil
  | cons (n : ExprNode) (ns : ExprNodeList)

end

/-- Build an `ExprNodeList` from a `List ExprNode`. -/
def ExprNodeList.ofList : List ExprNode → ExprNodeList
  | [] => .nil
  | n :: ns => .cons n (ExprNodeList.ofList ns)

/-- The length of an `ExprNodeList` (`ns.len()`). -/
def ExprNodeList.length : ExprNodeList → Nat
  | .nil => 0
  | .cons _ ns => ns.length + 1

/-- Membership in an `ExprNodeList`. -/
inductive ExprNodeList.Mem (n : ExprNode) : ExprNodeList → Prop where
  | head {ns : ExprNodeList} : ExprNodeList.Mem n (.cons n ns)
  | tail {m : ExprNode} {ns : ExprNodeList} :
      ExprNodeList.Mem n ns → ExprNodeList.Mem n (.cons m ns)

instance : Membership ExprNode ExprNodeList :=
  ⟨fun ns n => ExprNodeList.Mem n ns⟩

/-- A definition body: a heap of shared subexpressions plus a head
expression (`Expr` in the environment). -/
structure DefExpr where
  heap : List ExprNode
  head : ExprNode

/-- Modelled from the spec: one term of the logical environment, with its
name, argument types, return sort, and `val` distinguishing an abstract
term (`none`) from a definition with a body (`some (some _)`);
`some none` is a definition whose body is not accessible. -/
structure TermData where
  name : String
  args : List EType
  ret : SortID × Nat
  val : Option (Option DefExpr)

/-- Modelled from the spec: the read-only environment interface used by the
codec: sort names by `SortID` and term data by `TermID`. -/
structure Environment where
  sorts : List String
  terms : List TermData

/-- The closed set of built-in string operations (`InoutStringType`). -/
inductive InoutStringType where
  | S0
  | S1
  | SAdd
  | SCons
  | Ch
  | Hex (h : Nat)
deriving DecidableEq

/-- The registry map `HashMap<TermID, InoutStringType>`, modelled as an
association list where a later `insert` shadows earlier entries. -/
abbrev SMap := List (TermID × InoutStringType)

/-- `HashMap::insert`: the new binding shadows any previous one. -/
def SMap.insert (m : SMap) (k : TermID) (v : InoutStringType) : SMap :=
  (k, v) :: m

/-- `HashMap::get`: the most recent binding for `k`, if any. -/
def SMap.get? (m : SMap) (k : TermID) : Option InoutStringType :=
  match m with
  | [] => none
  | (k2, v) :: rest => if k2 = k then some v else SMap.get? rest k

/-- A canonical segment (`StringSeg`): literal byte run, bound-variable
reference, opaque sub-application, or lone hex nibble. -/
inductive StringSeg where
  | Str (s : List Nat)
  | Var (s : SortID) (i : Nat)
  | Term (t : TermID) (args : List (List StringSeg))
  | Hex (h : Nat)

/-- The segment accumulator (`StringSegBuilder`): finalized segments, a
pending literal byte buffer, and a pending nibble. -/
structure StringSegBuilder where
  built : List StringSeg
  str : List Nat
  hex : Option Nat

/-- The empty builder (`StringSegBuilder::default`). -/
def StringSegBuilder.empty : StringSegBuilder := ⟨[], [], none⟩

/-- `StringSegBuilder::flush`: moves the pending byte buffer (if nonempty)
and then the pending nibble (if any) into the finalized segment list. -/
def StringSegBuilder.flush (b : StringSegBuilder) : StringSegBuilder :=
  let built := if b.str = [] then b.built else b.built ++ [StringSeg.Str b.str]
  let built := match b.hex with
    | none => built
    | some h => built ++ [StringSeg.Hex h]
  ⟨built, [], none⟩

/-- `StringSegBuilder::push_hex`.  Note the source reads `self.hex` without
`take()`: when a nibble is already pending it pushes the combined byte but
leaves the pending nibble in place. -/
def StringSegBuilder.push_hex (b : StringSegBuilder) (hex : Nat) : StringSegBuilder :=
  match b.hex with
  | none => { b with hex := some hex }
  | some hi => { b with str := b.str ++ [((hi <<< 4) ||| hex) % 256] }

/-- `StringSegBuilder::push_str`. -/
def StringSegBuilder.push_str (b : StringSegBuilder) (s : List Nat) : StringSegBuilder :=
  { b with str := b.str ++ s }

/-- `StringSegBuilder::push_seg`: literal and nibble segments route through
`push_str`/`push_hex`; any other segment flushes pending state and is
appended verbatim. -/
def StringSegBuilder.push_seg (b : StringSegBuilder) (seg : StringSeg) : StringSegBuilder :=
  match seg with
  | .Str s => b.push_str s
  | .Hex h => b.push_hex h
  | seg => let b := b.flush; { b with built := b.built ++ [seg] }

/-- `StringSegBuilder::make`: run `f` on an empty builder, flush, and return
the finalized segments. -/
def StringSegBuilder.make (f : StringSegBuilder → Except String StringSegBuilder) :
    Except String (List StringSeg) :=
  match f StringSegBuilder.empty with
  | .error e => .error e
  | .ok out => .ok out.flush.built

/-- The error type returned by the output evaluator (`OutputError`).
`IOError` is unreachable with the pure byte-list sink and carries no
payload; `Fuel` is an artifact of the embedding marking exhaustion of the
recursion fuel that bounds definition unfolding (the Rust recursion is
bounded only by the host call stack). -/
inductive OutputError where
  | IOError
  | String (s : String)
  | Fuel
deriving DecidableEq

/-- The output writer (`StringWriter`): the byte sink plus at most one
pending nibble. -/
structure StringWriter where
  w : List Nat
  hex : Option Nat
deriving DecidableEq

/-- A materialized result of evaluating one node (`StringPart`): either a
lone pending nibble or a literal byte buffer. -/
inductive StringPart where
  | Hex (h : Nat)
  | Str (s : List Nat)
deriving DecidableEq

/-- `StringWriter::write_hex`: with no nibble pending the nibble becomes
pending; otherwise one byte `(pending << 4) | h` is emitted and the pending
nibble is cleared (`self.hex.take()`).  The byte-list sink cannot fail, so
the `io::Result` is always `Ok`. -/
def StringWriter.write_hex (sw : StringWriter) (h : Nat) : StringWriter :=
  match sw.hex with
  | none => { sw with hex := some h }
  | some hi => { w := sw.w ++ [((hi <<< 4) ||| h) % 256], hex := none }

/-- `StringWriter::write_str`: bytes pass straight through to the sink,
independent of any pending nibble. -/
def StringWriter.write_str (sw : StringWriter) (buf : List Nat) : StringWriter :=
  { sw with w := sw.w ++ buf }

/-- `StringWriter::write_part`: replays a previously captured string part
through this writer. -/
def StringWriter.write_part (sw : StringWriter) (s : StringPart) : StringWriter :=
  match s with
  | .Hex h => sw.write_hex h
  | .Str s => sw.write_str s

/-- `impl From<StringWriter<Vec<u8>>> for StringPart`: the finalize
operation converting a writer into a reusable string part. -/
def StringPart.ofWriter (s : StringWriter) : StringPart :=
  match s.hex with
  | none => .Str s.w
  | some h => .Hex h

/-- The resolved sort ids (`Sorts`). -/
structure Sorts where
  str : SortID
  hex : SortID
  chr : SortID
deriving DecidableEq

/-- `Environment::check_sort`: look up a sort by name. -/
def Environment.check_sort (env : Environment) (s : String) : Except String SortID :=
  match env.sorts.findIdx? (· == s) with
  | some i => .ok i
  | none => .error ("sort \x27" ++ s ++ "\x27 not found")

/-- `Environment::new_sorts`: resolve the sorts "string", "hex", "char". -/
def Environment.new_sorts (env : Environment) : Except String Sorts :=
  match env.check_sort "string" with
  | .error e => .error e
  | .ok str =>
    match env.check_sort "hex" with
    | .error e => .error e
    | .ok hex =>
      match env.check_sort "char" with
      | .error e => .error e
      | .ok chr => .ok ⟨str, hex, chr⟩

/-- Find the first term with the given name, together with its id
(the model of the `atoms`-table lookup in `check_term`). -/
def findTermAux (i : Nat) (ts : List TermData) (s : String) : Option (Nat × TermData) :=
  match ts with
  | [] => none
  | td :: rest => if td.name = s then some (i, td) else findTermAux (i + 1) rest s

/-- Name lookup over `Environment.terms`. -/
def Environment.findTerm? (env : Environment) (s : String) : Option (Nat × TermData) :=
  findTermAux 0 env.terms s

/-- The sort name rendered in `check_term` error messages. -/
def Environment.sortName (env : Environment) (i : SortID) : String :=
  env.sorts.getD i ""

/-- `Environment::check_term`: look up a term by name and check that it has
the expected argument sorts, return sort, and definition kind (`defn`
demands a definition, `¬defn` an abstract term). -/
def Environment.check_term (env : Environment) (s : String) (args : List SortID)
    (ret : SortID) (defn : Bool) : Except String TermID :=
  match env.findTerm? s with
  | none => .error ("term \x27" ++ s ++ "\x27 not found")
  | some (t, td) =>
    match defn, td.val with
    | false, some _ => .error ("def \x27" ++ s ++ "\x27 should be a term")
    | true, none => .error ("term \x27" ++ s ++ "\x27 should be a def")
    | _, _ =>
      if td.ret = (ret, 0) ∧ td.args.length = args.length ∧
          ∀ p ∈ td.args.zip args, p.1 = EType.Reg p.2 0 then
        .ok t
      else
        .error ((args.foldl (fun acc i => acc ++ env.sortName i ++ " > ")
          ("term \x27" ++ s ++ "\x27 has incorrect type, expected: ")) ++ env.sortName ret)

mutual

/-- `Environment::process_node`: evaluate one expression node into a segment
builder at verification time.  A dummy fails; a reference below `args.length`
appends a bound-variable segment (the argument type must be `Reg(s, 0)`, the
source marks other shapes `unreachable!`); a reference beyond it flushes and
splices the already-finalized heap-slot segments; applications dispatch on
the registry, and an unrecognized term packs each sub-node into its own
finalized sequence inside one opaque `Term` segment.  Out-of-range indexing,
a panic in the source, is modelled as an error. -/
def process_node (terms : SMap) (args : List EType) (heap : List (List StringSeg)) :
    ExprNode → StringSegBuilder → Except String StringSegBuilder
  | .Dummy, _ => .error "dummy not permitted"
  | .Ref i, out =>
    if i < args.length then
      match args.getD i (EType.Bound 0) with
      | .Reg s 0 => .ok (out.push_seg (.Var s i))
      | _ => .error "unreachable"
    else
      match heap[i - args.length]? with
      | some segs => let o := out.flush; .ok { o with built := o.built ++ segs }
      | none => .error "index out of bounds"
  | .App t ns, out =>
    match terms.get? t with
    | some .S0 => .ok out
    | some .S1 =>
      match ns with
      | .cons n0 _ => process_node terms args heap n0 out
      | .nil => .error "index out of bounds"
    | some .SAdd | some .SCons | some .Ch =>
      match ns with
      | .cons n0 (.cons n1 _) =>
        match process_node terms args heap n0 out with
        | .error e => .error e
        | .ok out1 => process_node terms args heap n1 out1
      | _ => .error "index out of bounds"
    | some (.Hex h) => .ok (out.push_hex h)
    | _ =>
      match process_node_args terms args heap ns with
      | .error e => .error e
      | .ok segArgs => .ok (out.push_seg (.Term t segArgs))

/-- The `ns.iter().map(...).collect()` of the opaque-application arm of
`process_node`: each sub-node evaluated into its own finalized sequence. -/
def process_node_args (terms : SMap) (args : List EType) (heap : List (List StringSeg)) :
    ExprNodeList → Except String (List (List StringSeg))
  | .nil => .ok []
  | .cons n ns =>
    match StringSegBuilder.make (fun out => process_node terms args heap n out) with
    | .error e => .error e
    | .ok segs =>
      match process_node_args terms args heap ns with
      | .error e => .error e
      | .ok rest => .ok (segs :: rest)

end

/-- The heap-resolution loop of `Environment::process_def`: each heap entry
beyond the formal parameters is evaluated against the previously resolved
entries, in index order. -/
def process_def_heap (terms : SMap) (args : List EType) :
    List ExprNode → List (List StringSeg) → Except String (List (List StringSeg))
  | [], refs => .ok refs
  | e :: rest, refs =>
    match StringSegBuilder.make (fun out => process_node terms args refs e out) with
    | .error err => .error err
    | .ok res => process_def_heap terms args rest (refs ++ [res])

/-- `Environment::process_def`: evaluate the body of definition `t` with the
segment builder, resolving its internal heap entries first. -/
def Environment.process_def (env : Environment) (terms : SMap) (t : TermID)
    (name : String) : Except String (List StringSeg) :=
  match env.terms.getD t ⟨"", [], (0, 0), none⟩ with
  | td =>
    match td.val with
    | some (some ⟨heap, head⟩) =>
      match process_def_heap terms td.args (heap.drop td.args.length) [] with
      | .error e => .error e
      | .ok refs => StringSegBuilder.make (fun out => process_node terms td.args refs head out)
    | _ => .error ("term \x27" ++ name ++ "\x27 should be a def")

/-- The name of hex-digit term `i`, i.e. `format!("x{:x}", i)`. -/
def hexTermName (i : Nat) : String :=
  "x" ++ (match i with
  | 0 => "0" | 1 => "1" | 2 => "2" | 3 => "3"
  | 4 => "4" | 5 => "5" | 6 => "6" | 7 => "7"
  | 8 => "8" | 9 => "9" | 10 => "a" | 11 => "b"
  | 12 => "c" | 13 => "d" | 14 => "e" | _ => "f")

/-- The `for i in 0..16` loop of `new_string_handler`: register the sixteen
hex-digit terms.  `i` is the next index, `rem` the number still to insert. -/
def insert_hex_terms (env : Environment) (s : Sorts) (i : Nat) :
    Nat → SMap → Except String SMap
  | 0, m => .ok m
  | rem + 1, m =>
    match env.check_term (hexTermName i) [] s.hex false with
    | .error e => .error e
    | .ok t => insert_hex_terms env s (i + 1) rem (m.insert t (.Hex i))

/-- The base-registry portion of `Environment::new_string_handler`: resolve
the three sorts and the terms `s0`, `s1`, `sadd`, `ch`, `x0`..`xf`. -/
def Environment.new_string_handler_base (env : Environment) :
    Except String (Sorts × SMap) :=
  match env.new_sorts with
  | .error e => .error e
  | .ok s =>
    match env.check_term "s0" [] s.str false with
    | .error e => .error e
    | .ok t0 =>
      match env.check_term "s1" [s.chr] s.str false with
      | .error e => .error e
      | .ok t1 =>
        match env.check_term "sadd" [s.str, s.str] s.str false with
        | .error e => .error e
        | .ok t2 =>
          match env.check_term "ch" [s.hex, s.hex] s.chr false with
          | .error e => .error e
          | .ok t3 =>
            let m : SMap := []
            let m := m.insert t0 .S0
            let m := m.insert t1 .S1
            let m := m.insert t2 .SAdd
            let m := m.insert t3 .Ch
            match insert_hex_terms env s 0 16 m with
            | .error e => .error e
            | .ok m => .ok (s, m)

/-- The `*ss == [StringSeg::Var(s.chr, 0), StringSeg::Var(s.str, 1)]`
comparison of `new_string_handler`. -/
def is_scons_body (s : Sorts) : List StringSeg → Bool
  | [.Var c 0, .Var st 1] => c = s.chr ∧ st = s.str
  | _ => false

/-- `Environment::new_string_handler`: build the base registry, then attempt
to reclassify a `(char, string) → string` definition named `scons` as the
Cons built-in when its body evaluates to exactly the two bound-variable
segments; any failure along the way merely skips the classification. -/
def Environment.new_string_handler (env : Environment) :
    Except String (Sorts × SMap) :=
  match env.new_string_handler_base with
  | .error e => .error e
  | .ok (s, m) =>
    match env.check_term "scons" [s.chr, s.str] s.str true with
    | .ok t =>
      match env.process_def m t "scons" with
      | .ok ss => if is_scons_body s ss then .ok (s, m.insert t .SCons) else .ok (s, m)
      | .error _ => .ok (s, m)
    | .error _ => .ok (s, m)

/-- The definition-heap loop of the unfolding arm of `write_node`: each
internal heap entry beyond the formal parameters is evaluated in a fresh
writer (via `deeper`, the evaluator one unfolding level down) against the
growing argument-plus-internal list. -/
def write_node_defheap
    (deeper : List StringPart → ExprNode → StringWriter → StringWriter × Option OutputError) :
    List ExprNode → List StringPart → Except OutputError (List StringPart)
  | [], acc => .ok acc
  | e :: rest, acc =>
    match deeper acc e ⟨[], none⟩ with
    | (_, some err) => .error err
    | (w, none) => write_node_defheap deeper rest (acc ++ [StringPart.ofWriter w])

mutual

/-- The body of `Environment::write_node`, the output-time recursive
evaluator.  The writer is threaded through and returned together with an
optional error, so bytes emitted before a failure remain visible (as they
remain written in the real sink).  Since the recursion into a definition's
own heap and body is not structural, those two call sites go through the
parameter `deeper`; `write_node` below instantiates it with the evaluator
one fuel level down.  Out-of-range indexing, a panic in the source, is
modelled as an error. -/
def write_node_core (env : Environment) (terms : SMap)
    (deeper : List StringPart → ExprNode → StringWriter → StringWriter × Option OutputError) :
    List StringPart → ExprNode → StringWriter → StringWriter × Option OutputError
  | heap, .Ref i, w =>
    match heap[i]? with
    | some p => (w.write_part p, none)
    | none => (w, some (.String "index out of bounds"))
  | _, .Dummy, w => (w, some (.String "Found dummy variable in string definition"))
  | heap, .App t ns, w =>
    match terms.get? t with
    | some .S0 => (w, none)
    | some .S1 => write_node_core_fst env terms deeper heap ns w
    | some .SAdd | some .SCons | some .Ch =>
      write_node_core_both env terms deeper heap ns w
    | some (.Hex h) => (w.write_hex h, none)
    | _ =>
      match env.terms.getD t ⟨"", [], (0, 0), none⟩ with
      | td =>
        match td.val with
        | some (some expr) =>
          match write_node_core_parts env terms deeper heap ns [] with
          | .error e => (w, some e)
          | .ok args0 =>
            match write_node_defheap deeper (expr.heap.drop ns.length) args0 with
            | .error e => (w, some e)
            | .ok args1 => deeper args1 expr.head w
        | _ => (w, some (.String "Unknown definition"))

/-- The `self.write_node(terms, heap, &ns[0], w)` of the `S1` arm: evaluate
the first child (out-of-range indexing, a panic in the source, is modelled
as an error). -/
def write_node_core_fst (env : Environment) (terms : SMap)
    (deeper : List StringPart → ExprNode → StringWriter → StringWriter × Option OutputError) :
    List StringPart → ExprNodeList → StringWriter → StringWriter × Option OutputError
  | heap, .cons n0 _, w => write_node_core env terms deeper heap n0 w
  | _, .nil, w => (w, some (.String "index out of bounds"))

/-- The `ns[0]` then `ns[1]` sequencing of the `SAdd`/`SCons`/`Ch` arm:
evaluate the first child, then on success the second, into the same
writer. -/
def write_node_core_both (env : Environment) (terms : SMap)
    (deeper : List StringPart → ExprNode → StringWriter → StringWriter × Option OutputError) :
    List StringPart → ExprNodeList → StringWriter → StringWriter × Option OutputError
  | heap, .cons n0 (.cons n1 _), w =>
    match write_node_core env terms deeper heap n0 w with
    | (w1, some e) => (w1, some e)
    | (w1, none) => write_node_core env terms deeper heap n1 w1
  | _, _, w => (w, some (.String "index out of bounds"))

/-- The argument loop of the unfolding arm of `write_node`: each actual
argument is evaluated in a fresh writer and converted into a string part
(`evaluate_to_part`). -/
def write_node_core_parts (env : Environment) (terms : SMap)
    (deeper : List StringPart → ExprNode → StringWriter → StringWriter × Option OutputError) :
    List StringPart → ExprNodeList → List StringPart →
    Except OutputError (List StringPart)
  | _, .nil, acc => .ok acc
  | heap, .cons n ns, acc =>
    match write_node_core env terms deeper heap n ⟨[], none⟩ with
    | (_, some e) => .error e
    | (w, none) =>
      write_node_core_parts env terms deeper heap ns (acc ++ [StringPart.ofWriter w])

end

/-- `Environment::write_node` with the unfolding recursion tied through a
fuel parameter: `fuel` bounds only definition-unfolding depth (built-in
dispatch and argument evaluation happen inside one `write_node_core` layer),
and its exhaustion yields the embedding-artifact error `OutputError.Fuel`
(the Rust recursion is bounded only by the host call stack). -/
def write_node (env : Environment) (terms : SMap) :
    Nat → List StringPart → ExprNode → StringWriter → StringWriter × Option OutputError
  | 0 => write_node_core env terms (fun _ _ w => (w, some .Fuel))
  | fuel + 1 => write_node_core env terms (write_node env terms fuel)

/-- The heap loop of `Environment::write_output_string`: each statement heap
entry is evaluated in a fresh writer and appended to the resolved list. -/
def write_output_heap (env : Environment) (terms : SMap) (fuel : Nat) :
    List ExprNode → List StringPart → Except OutputError (List StringPart)
  | [], args => .ok args
  | e :: rest, args =>
    match write_node env terms fuel args e ⟨[], none⟩ with
    | (_, some err) => .error err
    | (w, none) => write_output_heap env terms fuel rest (args ++ [StringPart.ofWriter w])

/-- The root loop of `Environment::write_output_string`: each root
expression is streamed into the caller's writer in order. -/
def write_output_exprs (env : Environment) (terms : SMap) (fuel : Nat)
    (args : List StringPart) :
    List ExprNode → StringWriter → StringWriter × Option OutputError
  | [], w => (w, none)
  | e :: rest, w =>
    match write_node env terms fuel args e w with
    | (w1, some err) => (w1, some err)
    | (w1, none) => write_output_exprs env terms fuel args rest w1

/-- `Environment::write_output_string`: resolve the statement heap bottom-up
into string parts, then stream each root expression into the writer. -/
def write_output_string (env : Environment) (terms : SMap) (fuel : Nat)
    (w : StringWriter) (heap : List ExprNode) (exprs : List ExprNode) :
    StringWriter × Option OutputError :=
  match write_output_heap env terms fuel heap [] with
  | .error e => (w, some e)
  | .ok args => write_output_exprs env terms fuel args exprs w

/-- The tail of `Elaborator::eval_string`: run `write_output_string` on a
fresh writer and return only the accumulated bytes `w.w` — any nibble still
pending in the writer is dropped. -/
def eval_string (env : Environment) (terms : SMap) (fuel : Nat)
    (heap : List ExprNode) (exprs : List ExprNode) : Except OutputError (List Nat) :=
  match write_output_string env terms fuel ⟨[], none⟩ heap exprs with
  | (_, some e) => .error e
  | (w, none) => .ok w.w

/-- One elaborated statement, as far as `run_output` is concerned. -/
inductive StmtTrace where
  | OutputString (heap : List ExprNode) (exprs : List ExprNode)
  | Other

/-- `FrozenEnv::run_output`: wrap the caller's sink in a writer with no
pending nibble and replay every `OutputString` statement in order, stopping
at the first error.  The source initializes `handler = None` outside the
loop but then assigns `handler = Some(new_string_handler()?)` unconditionally
for every statement; the returned `Nat` counts these `new_string_handler`
invocations (the writer/error components mirror the source exactly). -/
def run_output (env : Environment) (fuel : Nat) :
    List StmtTrace → StringWriter → Nat → (StringWriter × Option OutputError) × Nat
  | [], w, calls => ((w, none), calls)
  | .Other :: rest, w, calls => run_output env fuel rest w calls
  | .OutputString heap exprs :: rest, w, calls =>
    match env.new_string_handler with
    | .error e => ((w, some (.String e)), calls + 1)
    | .ok (_, terms) =>
      match write_output_string env terms fuel w heap exprs with
      | (w1, some e) => ((w1, some e), calls + 1)
      | (w1, none) => run_output env fuel rest w1 (calls + 1)

/-- `Elaborator::get_string_handler`: returns the cached registry when the
`InoutHandlers.string` slot is filled, computing and caching it otherwise.
The result carries the updated cache and a count of `new_string_handler`
invocations. -/
def get_string_handler (env : Environment) (cache : Option (Sorts × SMap)) :
    Except String ((Sorts × SMap) × Option (Sorts × SMap) × Nat) :=
  match cache with
  | some sm => .ok (sm, some sm, 0)
  | none =>
    match env.new_string_handler with
    | .ok sm => .ok (sm, some sm, 1)
    | .error e => .error e

/-! ## A concrete test environment

Sorts: `string = 0`, `hex = 1`, `char = 2`.  Terms 0–19 are the abstract
built-ins, 20 is a well-formed `scons` definition, 21 is the definition
`foo (x : char) : string := sadd (s1 x) (s0)`, 22 is an abstract term
`bar : string` outside the built-in vocabulary, 23 is the definition
`qux : string := bar`, and 24 is a definition `wit` whose body is a dummy
node. -/

/-- A concrete environment exercising every registry path. -/
def testEnv : Environment where
  sorts := ["string", "hex", "char"]
  terms := [
    ⟨"s0", [], (0, 0), none⟩,
    ⟨"s1", [.Reg 2 0], (0, 0), none⟩,
    ⟨"sadd", [.Reg 0 0, .Reg 0 0], (0, 0), none⟩,
    ⟨"ch", [.Reg 1 0, .Reg 1 0], (2, 0), none⟩,
    ⟨"x0", [], (1, 0), none⟩,
    ⟨"x1", [], (1, 0), none⟩,
    ⟨"x2", [], (1, 0), none⟩,
    ⟨"x3", [], (1, 0), none⟩,
    ⟨"x4", [], (1, 0), none⟩,
    ⟨"x5", [], (1, 0), none⟩,
    ⟨"x6", [], (1, 0), none⟩,
    ⟨"x7", [], (1, 0), none⟩,
    ⟨"x8", [], (1, 0), none⟩,
    ⟨"x9", [], (1, 0), none⟩,
    ⟨"xa", [], (1, 0), none⟩,
    ⟨"xb", [], (1, 0), none⟩,
    ⟨"xc", [], (1, 0), none⟩,
    ⟨"xd", [], (1, 0), none⟩,
    ⟨"xe", [], (1, 0), none⟩,
    ⟨"xf", [], (1, 0), none⟩,
    ⟨"scons", [.Reg 2 0, .Reg 0 0], (0, 0),
      some (some ⟨[.Ref 0, .Ref 1],
        .App 2 (.ofList [.App 1 (.ofList [.Ref 0]), .Ref 1])⟩)⟩,
    ⟨"foo", [.Reg 2 0], (0, 0),
      some (some ⟨[.Ref 0],
        .App 2 (.ofList [.App 1 (.ofList [.Ref 0]), .App 0 .nil])⟩)⟩,
    ⟨"bar", [], (0, 0), none⟩,
    ⟨"qux", [], (0, 0), some (some ⟨[], .App 22 .nil⟩)⟩,
    ⟨"wit", [], (0, 0), some (some ⟨[], .Dummy⟩)⟩]

/-- The resolved sorts for `testEnv`. -/
def testSorts : Sorts := ⟨0, 1, 2⟩

/-- The base registry `new_string_handler_base` produces for `testEnv`. -/
def testBaseMap : SMap :=
  [(19, .Hex 15), (18, .Hex 14), (17, .Hex 13), (16, .Hex 12),
   (15, .Hex 11), (14, .Hex 10), (13, .Hex 9), (12, .Hex 8),
   (11, .Hex 7), (10, .Hex 6), (9, .Hex 5), (8, .Hex 4),
   (7, .Hex 3), (6, .Hex 2), (5, .Hex 1), (4, .Hex 0),
   (3, .Ch), (2, .SAdd), (1, .S1), (0, .S0)]

/-- The full registry `new_string_handler` produces for `testEnv`:
`scons` is classified as the Cons built-in. -/
def testMap : SMap := (20, .SCons) :: testBaseMap

/-! ## Auxiliary definitions used by the specification statements -/

/-- What a caller of `run_output` observes: the bytes delivered to the sink
on success, or the error.  Any nibble still pending in the wrapper writer
when the run completes is dropped. -/
def run_output_bytes (env : Environment) (fuel : Nat) (stmts : List StmtTrace) :
    Except OutputError (List Nat) :=
  match (run_output env fuel stmts ⟨[], none⟩ 0).1 with
  | (w, none) => .ok w.w
  | (_, some e) => .error e

/-- One verification-time operation on a segment builder. -/
inductive BuilderOp where
  | pushStr (s : List Nat)
  | pushHex (h : Nat)
  | pushSeg (seg : StringSeg)

/-- Apply one builder operation. -/
def applyOp (b : StringSegBuilder) : BuilderOp → StringSegBuilder
  | .pushStr s => b.push_str s
  | .pushHex h => b.push_hex h
  | .pushSeg seg => b.push_seg seg

/-- Run a sequence of builder operations. -/
def runOps : List BuilderOp → StringSegBuilder → StringSegBuilder
  | [], b => b
  | op :: rest, b => runOps rest (applyOp b op)

/-- Is this segment a literal (byte run or lone nibble)? -/
def segIsLit : StringSeg → Bool
  | .Str _ => true
  | .Hex _ => true
  | _ => false

/-- Is this segment a lone nibble? -/
def segIsHex : StringSeg → Bool
  | .Hex _ => true
  | _ => false

/-- Adjacency permitted in a finished segment sequence: no literal run
directly after a literal run, and nothing literal directly after a lone
nibble (a byte run follows a lone nibble only in the other order,
`Str` then `Hex`, as produced by one flush). -/
def okAdj : StringSeg → StringSeg → Bool
  | .Str _, .Str _ => false
  | .Hex _, .Str _ => false
  | .Hex _, .Hex _ => false
  | _, _ => true

/-- No forbidden adjacency anywhere in the list. -/
def noBadAdj : List StringSeg → Bool
  | a :: b :: rest => okAdj a b && noBadAdj (b :: rest)
  | _ => true

/-- Specification-side well-formedness for `write_node` inputs, including
definition unfolding: `EvalWF env terms fuel hlen e` says that evaluating
`e` against a resolved-parts list of length `hlen` within `fuel` unfolding
layers stays inside the spec: registry built-ins are applied at their
type-correct arities, references stay in bounds, and an application of an
unregistered term has a definition body whose actual arguments, dropped
definition-heap entries and head are themselves well-formed at the
resolved-list lengths and fuel the evaluator uses for them. -/
inductive EvalWF (env : Environment) (terms : SMap) : Nat → Nat → ExprNode → Prop where
  | dummy {fuel hlen : Nat} : EvalWF env terms fuel hlen .Dummy
  | ref {fuel hlen i : Nat} : i < hlen → EvalWF env terms fuel hlen (.Ref i)
  | s0 {fuel hlen : Nat} {t : TermID} : terms.get? t = some .S0 →
      EvalWF env terms fuel hlen (.App t .nil)
  | s1 {fuel hlen : Nat} {t : TermID} {n0 : ExprNode} : terms.get? t = some .S1 →
      EvalWF env terms fuel hlen n0 →
      EvalWF env terms fuel hlen (.App t (.cons n0 .nil))
  | sadd {fuel hlen : Nat} {t : TermID} {n0 n1 : ExprNode} :
      terms.get? t = some .SAdd →
      EvalWF env terms fuel hlen n0 → EvalWF env terms fuel hlen n1 →
      EvalWF env terms fuel hlen (.App t (.cons n0 (.cons n1 .nil)))
  | scons {fuel hlen : Nat} {t : TermID} {n0 n1 : ExprNode} :
      terms.get? t = some .SCons →
      EvalWF env terms fuel hlen n0 → EvalWF env terms fuel hlen n1 →
      EvalWF env terms fuel hlen (.App t (.cons n0 (.cons n1 .nil)))
  | ch {fuel hlen : Nat} {t : TermID} {n0 n1 : ExprNode} :
      terms.get? t = some .Ch →
      EvalWF env terms fuel hlen n0 → EvalWF env terms fuel hlen n1 →
      EvalWF env terms fuel hlen (.App t (.cons n0 (.cons n1 .nil)))
  | hex {fuel hlen : Nat} {t : TermID} {h : Nat} : terms.get? t = some (.Hex h) →
      EvalWF env terms fuel hlen (.App t .nil)
  | unfold {fuel hlen : Nat} {t : TermID} {ns : ExprNodeList} {td : TermData}
      {expr : DefExpr} :
      terms.get? t = none →
      env.terms.getD t ⟨"", [], (0, 0), none⟩ = td →
      td.val = some (some expr) →
      (∀ n, n ∈ ns → EvalWF env terms (fuel + 1) hlen n) →
      (∀ (j : Nat) (e : ExprNode), (expr.heap.drop ns.length)[j]? = some e →
        EvalWF env terms fuel (ns.length + j) e) →
      EvalWF env terms fuel (ns.length + (expr.heap.drop ns.length).length) expr.head →
      EvalWF env terms (fuel + 1) hlen (.App t ns)

/-- The node contains a dummy somewhere reachable by the evaluator: among
its own sub-nodes, or — through definition unfolding of an application of an
unregistered term with a body — inside the dropped definition-heap entries
or the body head. -/
inductive HasDummyU (env : Environment) (terms : SMap) : ExprNode → Prop where
  | dummy : HasDummyU env terms .Dummy
  | app {t : TermID} {ns : ExprNodeList} {n : ExprNode} :
      n ∈ ns → HasDummyU env terms n → HasDummyU env terms (.App t ns)
  | defheap {t : TermID} {ns : ExprNodeList} {td : TermData} {expr : DefExpr}
      {e : ExprNode} :
      terms.get? t = none →
      env.terms.getD t ⟨"", [], (0, 0), none⟩ = td →
      td.val = some (some expr) →
      e ∈ expr.heap.drop ns.length →
      HasDummyU env terms e →
      HasDummyU env terms (.App t ns)
  | head {t : TermID} {ns : ExprNodeList} {td : TermData} {expr : DefExpr} :
      terms.get? t = none →
      env.terms.getD t ⟨"", [], (0, 0), none⟩ = td →
      td.val = some (some expr) →
      HasDummyU env terms expr.head →
      HasDummyU env terms (.App t ns)

/-- Well-formedness of a statement heap: entry `i` may reference only
resolved parts below `n + i`, matching the bottom-up resolution order. -/
inductive StmtHeapWF (env : Environment) (terms : SMap) (fuel : Nat) :
    Nat → List ExprNode → Prop where
  | nil {n : Nat} : StmtHeapWF env terms fuel n []
  | cons {n : Nat} {e : ExprNode} {rest : List ExprNode} :
      EvalWF env terms fuel n e → StmtHeapWF env terms fuel (n + 1) rest →
      StmtHeapWF env terms fuel n (e :: rest)

/-! ## Shared evaluation facts about the test environment -/

/-- The base registry of `testEnv` evaluates as expected. -/
theorem testEnv_base_eval : testEnv.new_string_handler_base = .ok (testSorts, testBaseMap) :=
  rfl

/-- The full registry of `testEnv` evaluates as expected: `scons` passes the
alias verification. -/
theorem testEnv_handler_eval : testEnv.new_string_handler = .ok (testSorts, testMap) :=
  rfl

/-! ## Claim C1: finalizing a writer into a string part -/

/-- C1 counterexample: finalizing a writer that holds buffered byte `0x42`
together with pending nibble `3` yields the lone-nibble part `Hex 3`;
replaying it into a fresh writer gives only the pending nibble — the
buffered byte is lost, contradicting the claim that the part contains the
buffered bytes plus the pending nibble. -/
theorem c1_finalize_cex :
    StringPart.ofWriter ⟨[0x42], some 3⟩ = .Hex 3 ∧
    StringWriter.write_part ⟨[], none⟩ (StringPart.ofWriter ⟨[0x42], some 3⟩) =
      ⟨[], some 3⟩ ∧
    (⟨[], some 3⟩ : StringWriter) ≠ ⟨[0x42], some 3⟩ :=
  ⟨rfl, rfl, by decide⟩

/-- C1 (amended): finalizing a writer with no pending nibble produces a
literal part replaying to exactly the buffered bytes; finalizing a writer
with a pending nibble produces a lone-nibble part replaying to exactly that
pending nibble, the buffered bytes being discarded. -/
theorem c1_finalize_amended (b : List Nat) (h : Nat) :
    StringWriter.write_part ⟨[], none⟩ (StringPart.ofWriter ⟨b, none⟩) = ⟨b, none⟩ ∧
    StringWriter.write_part ⟨[], none⟩ (StringPart.ofWriter ⟨b, some h⟩) = ⟨[], some h⟩ :=
  ⟨rfl, rfl⟩

/-! ## Claim C2: `s1 (ch xA xB)` emits the byte `(A <<< 4) ||| B` -/

/-- C2: for all hex digits `A, B < 16` and any unfolding fuel, evaluating
`s1 (ch (xA) (xB))` through `write_node` into an empty writer emits exactly
the single byte `(A <<< 4) ||| B` and leaves no nibble pending; in
particular `A = 0, B = 1` gives the byte `0x01`. -/
theorem c2_s1_ch_byte (fuel A B : Nat) (hA : A < 16) (hB : B < 16) :
    write_node testEnv testMap fuel []
      (.App 1 (.ofList [.App 3 (.ofList [.App (4 + A) .nil, .App (4 + B) .nil])])) ⟨[], none⟩ =
    ((⟨[(A <<< 4) ||| B], none⟩ : StringWriter), none) := by
  interval_cases A <;> interval_cases B <;> cases fuel <;> rfl

/-- C2 witness: the instance `A = 0, B = 1` outputs the single byte `0x01`. -/
theorem c2_s1_ch_byte_witness :
    write_node testEnv testMap 0 []
      (.App 1 (.ofList [.App 3 (.ofList [.App 4 .nil, .App 5 .nil])])) ⟨[], none⟩ =
    ((⟨[0x01], none⟩ : StringWriter), none) :=
  c2_s1_ch_byte 0 0 1 (by decide) (by decide)

/-! ## Claim C3: registry resolution once per session -/

/-- C3: `Elaborator::get_string_handler` does reuse a warm cache without
invoking resolution (zero `new_string_handler` calls), but
`FrozenEnv::run_output` invokes `new_string_handler` once per `OutputString`
statement: a single run over two output statements performs two resolutions,
not at most one. -/
theorem c3_run_output_resolves_per_statement :
    (∀ env sm, get_string_handler env (some sm) = .ok (sm, some sm, 0)) ∧
    (run_output testEnv 0
      [.OutputString [] [.App 0 .nil], .OutputString [] [.App 0 .nil]]
      ⟨[], none⟩ 0).2 = 2 :=
  ⟨fun _ _ => rfl, rfl⟩

/-! ## Claim C6: unfolding `foo (x) := sadd (s1 x) (s0)` -/

/-- C6: evaluating `foo (ch x4 x2)` through `write_node` — the argument
materialized as a string part in a fresh writer, the definition heap
resolved, and the body streamed into the outer writer — outputs exactly the
single byte `0x42`, for every fuel allowing at least one unfolding. -/
theorem c6_foo_unfolds_to_42 (fuel : Nat) :
    write_node testEnv testMap (fuel + 1) []
      (.App 21 (.ofList [.App 3 (.ofList [.App 8 .nil, .App 6 .nil])])) ⟨[], none⟩ =
    ((⟨[0x42], none⟩ : StringWriter), none) := by
  cases fuel <;> rfl

/-! ## Claim C10: a pending nibble at the public interface is dropped -/

/-- C10: at the public interfaces, a nibble still pending when evaluation of
all expressions completes is silently discarded: if `write_output_string`
ends in state `(buf, pending h)` with no error, `eval_string` returns
`.ok buf` (no error, no extra byte), and likewise a successful `run_output`
delivers to the sink exactly the buffered bytes of its final writer,
whatever nibble is still pending there. -/
theorem c10_pending_nibble_dropped :
    (∀ env terms fuel heap exprs buf h,
      write_output_string env terms fuel ⟨[], none⟩ heap exprs =
        ((⟨buf, some h⟩ : StringWriter), none) →
      eval_string env terms fuel heap exprs = .ok buf) ∧
    (∀ env fuel stmts w1 calls,
      run_output env fuel stmts ⟨[], none⟩ 0 = ((w1, none), calls) →
      run_output_bytes env fuel stmts = .ok w1.w) := by
  constructor
  · intro env terms fuel heap exprs buf h hrun
    unfold eval_string
    rw [hrun]
  · intro env fuel stmts w1 calls hrun
    unfold run_output_bytes
    rw [hrun]

/-- C10 witness: the single root `x7` leaves nibble `7` pending; both
`eval_string` and `run_output` report success with zero output bytes. -/
theorem c10_pending_nibble_dropped_witness :
    eval_string testEnv testMap 0 [] [.App 11 .nil] = .ok [] ∧
    run_output_bytes testEnv 0 [.OutputString [] [.App 11 .nil]] = .ok [] :=
  ⟨c10_pending_nibble_dropped.1 testEnv testMap 0 [] [.App 11 .nil] [] 7 rfl,
   c10_pending_nibble_dropped.2 testEnv 0 [.OutputString [] [.App 11 .nil]]
     ⟨[], some 7⟩ 1 rfl⟩

/-! ## Claim C7: `UnknownDefinition` at an unregistered application -/

/-- C7 counterexample: term 23 (`qux`) is absent from the registry and has a
definition body (`qux := bar`), yet evaluating `qux` fails with the
UnknownDefinition error, raised for the abstract `bar` inside the unfolded
body — refuting the claim that a term with a body never produces this
error. -/
theorem c7_unknown_definition_cex :
    testMap.get? 23 = none ∧
    (testEnv.terms.getD 23 ⟨"", [], (0, 0), none⟩).val =
      some (some ⟨[], .App 22 .nil⟩) ∧
    write_node testEnv testMap 1 [] (.App 23 .nil) ⟨[], none⟩ =
      (⟨[], none⟩, some (.String "Unknown definition")) :=
  ⟨rfl, rfl, rfl⟩

/-- C7 (amended): an application of a term absent from the registry fails
immediately with UnknownDefinition if and only if the term is abstract: an
abstract term always yields exactly that error, while a term with a body is
unfolded instead — when the unfolded arguments, definition heap and body all
evaluate successfully, the application succeeds (though the error may still
arise from abstract unregistered terms inside the unfolded body). -/
theorem c7_unknown_definition_amended (env : Environment) (terms : SMap)
    (t : TermID) (ns : ExprNodeList) (td : TermData)
    (hterms : terms.get? t = none)
    (htd : env.terms.getD t ⟨"", [], (0, 0), none⟩ = td) :
    (∀ fuel heap w, (td.val = none ∨ td.val = some none) →
      write_node env terms fuel heap (.App t ns) w =
        (w, some (.String "Unknown definition"))) ∧
    (∀ fuel heap w expr args0 args1 w1, td.val = some (some expr) →
      write_node_core_parts env terms (write_node env terms fuel) heap ns [] =
        .ok args0 →
      write_node_defheap (write_node env terms fuel)
        (expr.heap.drop ns.length) args0 = .ok args1 →
      write_node env terms fuel args1 expr.head w = (w1, none) →
      write_node env terms (fuel + 1) heap (.App t ns) w = (w1, none)) := by
  constructor
  · intro fuel heap w hval
    cases fuel <;>
      · simp only [write_node, write_node_core, hterms, htd]
        rcases hval with h | h <;> rw [h]
  · intro fuel heap w expr args0 args1 w1 hval hparts hdefheap hhead
    simp only [write_node, write_node_core, hterms, htd, hval]
    rw [hparts]
    dsimp only
    rw [hdefheap]
    dsimp only
    exact hhead

/-- C7 witness: instantiating the amended theorem at the abstract term `bar`
(id 22) and at the definition `foo` (id 21) of the test environment. -/
theorem c7_unknown_definition_amended_witness :
    write_node testEnv testMap 0 [] (.App 22 .nil) ⟨[], none⟩ =
      (⟨[], none⟩, some (.String "Unknown definition")) ∧
    write_node testEnv testMap 1 []
      (.App 21 (.ofList [.App 3 (.ofList [.App 8 .nil, .App 6 .nil])])) ⟨[], none⟩ =
      ((⟨[0x42], none⟩ : StringWriter), none) :=
  ⟨(c7_unknown_definition_amended testEnv testMap 22 .nil _ rfl rfl).1 0 [] ⟨[], none⟩
      (Or.inl rfl),
   (c7_unknown_definition_amended testEnv testMap 21
      (.ofList [.App 3 (.ofList [.App 8 .nil, .App 6 .nil])])
      _ rfl rfl).2 0 [] ⟨[], none⟩
      ⟨[.Ref 0], .App 2 (.ofList [.App 1 (.ofList [.Ref 0]), .App 0 .nil])⟩
      [.Str [0x42]] [.Str [0x42]] ⟨[0x42], none⟩ rfl rfl rfl rfl⟩

/-! ## Claim C9: output-associativity of concatenation -/

/-- One `write_node_core` layer is associative for `sadd`: both association
orders sequence the evaluations of `a`, `b`, `c` in the same order on the
same writer. -/
theorem write_node_core_sadd_assoc (env : Environment) (terms : SMap)
    (deeper : List StringPart → ExprNode → StringWriter → StringWriter × Option OutputError)
    (heap : List StringPart) (saddId : TermID) (a b c : ExprNode) (w : StringWriter)
    (h : terms.get? saddId = some .SAdd) :
    write_node_core env terms deeper heap
      (.App saddId (.cons (.App saddId (.cons a (.cons b .nil))) (.cons c .nil))) w =
    write_node_core env terms deeper heap
      (.App saddId (.cons a (.cons (.App saddId (.cons b (.cons c .nil))) .nil))) w := by
  simp only [write_node_core, write_node_core_both, h]
  cases h1 : write_node_core env terms deeper heap a w with
  | mk w1 r1 =>
    cases r1 with
    | none =>
      cases h2 : write_node_core env terms deeper heap b w1 with
      | mk w2 r2 => cases r2 <;> simp
    | some e => simp

/-- C9: evaluating `sadd (sadd a b) c` and `sadd a (sadd b c)` through
`write_node` from the same writer state yields identical results — the same
byte sequence and the same final pending-nibble state — for every fuel,
resolved heap, and sub-nodes `a`, `b`, `c`. -/
theorem c9_sadd_output_associative (env : Environment) (terms : SMap)
    (saddId : TermID) (fuel : Nat) (heap : List StringPart)
    (a b c : ExprNode) (w : StringWriter)
    (h : terms.get? saddId = some .SAdd) :
    write_node env terms fuel heap
      (.App saddId (.cons (.App saddId (.cons a (.cons b .nil))) (.cons c .nil))) w =
    write_node env terms fuel heap
      (.App saddId (.cons a (.cons (.App saddId (.cons b (.cons c .nil))) .nil))) w := by
  cases fuel <;>
    · simp only [write_node]
      exact write_node_core_sadd_assoc _ _ _ _ _ _ _ _ _ h

/-- C9 witness: a concrete instance with `a = s1 (ch x4 x2)`, `b = s0`,
`c = s1 (ch x0 x1)` in the test environment. -/
theorem c9_sadd_output_associative_witness :
    testMap.get? 2 = some .SAdd ∧
    write_node testEnv testMap 0 []
      (.App 2 (.cons (.App 2 (.cons
          (.App 1 (.ofList [.App 3 (.ofList [.App 8 .nil, .App 6 .nil])]))
          (.cons (.App 0 .nil) .nil)))
        (.cons (.App 1 (.ofList [.App 3 (.ofList [.App 4 .nil, .App 5 .nil])])) .nil)))
      ⟨[], none⟩ =
    write_node testEnv testMap 0 []
      (.App 2 (.cons
          (.App 1 (.ofList [.App 3 (.ofList [.App 8 .nil, .App 6 .nil])]))
        (.cons (.App 2 (.cons (.App 0 .nil)
          (.cons (.App 1 (.ofList [.App 3 (.ofList [.App 4 .nil, .App 5 .nil])])) .nil)))
          .nil)))
      ⟨[], none⟩ :=
  ⟨rfl, c9_sadd_output_associative testEnv testMap 2 0 []
    (.App 1 (.ofList [.App 3 (.ofList [.App 8 .nil, .App 6 .nil])]))
    (.App 0 .nil)
    (.App 1 (.ofList [.App 3 (.ofList [.App 4 .nil, .App 5 .nil])]))
    ⟨[], none⟩ rfl⟩

/-! ## Claim C5: dummies always fail, but bytes already streamed remain -/

/-- Nothing is a member of the empty child list. -/
theorem ExprNodeList.not_mem_nil (n : ExprNode) : ¬ n ∈ ExprNodeList.nil :=
  fun h => nomatch h

/-- Head membership for `ExprNodeList`. -/
theorem ExprNodeList.mem_cons_self (n : ExprNode) (ns : ExprNodeList) :
    n ∈ ExprNodeList.cons n ns :=
  ExprNodeList.Mem.head

/-- Tail membership for `ExprNodeList`. -/
theorem ExprNodeList.mem_cons_of_mem (m n : ExprNode) (ns : ExprNodeList) :
    n ∈ ns → n ∈ ExprNodeList.cons m ns :=
  ExprNodeList.Mem.tail

/-- A member of a one-element child list is that element. -/
theorem ExprNodeList.mem_one_elim {n n0 : ExprNode}
    (h : n ∈ ExprNodeList.cons n0 .nil) : n = n0 := by
  cases h with
  | head => rfl
  | tail h2 => cases h2

/-- A member of a two-element child list is one of the two elements. -/
theorem ExprNodeList.mem_two_elim {n n0 n1 : ExprNode}
    (h : n ∈ ExprNodeList.cons n0 (ExprNodeList.cons n1 .nil)) :
    n = n0 ∨ n = n1 := by
  cases h with
  | head => exact Or.inl rfl
  | tail h2 =>
    cases h2 with
    | head => exact Or.inr rfl
    | tail h3 => cases h3

/-- A reachable dummy below an application of a registered term lies in one
of its children. -/
theorem hasDummyU_registered_elim {env : Environment} {terms : SMap}
    {t : TermID} {ns : ExprNodeList} {v : InoutStringType}
    (ht : terms.get? t = some v) (h : HasDummyU env terms (.App t ns)) :
    ∃ n, n ∈ ns ∧ HasDummyU env terms n := by
  cases h with
  | app hmem hd => exact ⟨_, hmem, hd⟩
  | defheap ht2 _ _ _ _ => rw [ht] at ht2; exact (nomatch ht2)
  | head ht2 _ _ _ => rw [ht] at ht2; exact (nomatch ht2)

/-- A reachable dummy below an application of an unregistered term with a
body lies in an argument, in a dropped definition-heap entry, or in the
body head. -/
theorem hasDummyU_app_cases {env : Environment} {terms : SMap}
    {t : TermID} {ns : ExprNodeList} {td : TermData} {expr : DefExpr}
    (_hterms : terms.get? t = none)
    (htd : env.terms.getD t ⟨"", [], (0, 0), none⟩ = td)
    (hval : td.val = some (some expr))
    (h : HasDummyU env terms (.App t ns)) :
    (∃ n, n ∈ ns ∧ HasDummyU env terms n) ∨
    (∃ e ∈ expr.heap.drop ns.length, HasDummyU env terms e) ∨
    HasDummyU env terms expr.head := by
  cases h with
  | app hmem hd => exact Or.inl ⟨_, hmem, hd⟩
  | @defheap _ _ td2 expr2 e2 ht2 htd2 hval2 hmem hd =>
    have htd3 : td2 = td := htd2.symm.trans htd
    subst htd3
    have hexpr : expr2 = expr := by
      have h5 := hval2.symm.trans hval
      injection h5 with h6
      injection h6
    subst hexpr
    exact Or.inr (Or.inl ⟨e2, hmem, hd⟩)
  | @head _ _ td2 expr2 ht2 htd2 hval2 hd =>
    have htd3 : td2 = td := htd2.symm.trans htd
    subst htd3
    have hexpr : expr2 = expr := by
      have h5 := hval2.symm.trans hval
      injection h5 with h6
      injection h6
    subst hexpr
    exact Or.inr (Or.inr hd)

/-- Evaluating a dummy fails with the dummy error, at every fuel. -/
theorem write_node_dummy_eq {env : Environment} {terms : SMap} {fuel : Nat}
    {heap : List StringPart} {w : StringWriter} :
    write_node env terms fuel heap .Dummy w =
      (w, some (.String "Found dummy variable in string definition")) := by
  cases fuel <;> simp [write_node, write_node_core]

/-- Evaluating a reference replays the resolved part, at every fuel. -/
theorem write_node_ref_eq {env : Environment} {terms : SMap} {fuel : Nat}
    {heap : List StringPart} {i : Nat} {w : StringWriter} :
    write_node env terms fuel heap (.Ref i) w =
      match heap[i]? with
      | some p => (w.write_part p, none)
      | none => (w, some (.String "index out of bounds")) := by
  cases fuel <;> simp [write_node, write_node_core]

/-- An application resolved to `S0` writes nothing, at every fuel. -/
theorem write_node_s0_eq {env : Environment} {terms : SMap} {fuel : Nat}
    {heap : List StringPart} {t : TermID} {ns : ExprNodeList} {w : StringWriter}
    (ht : terms.get? t = some .S0) :
    write_node env terms fuel heap (.App t ns) w = (w, none) := by
  cases fuel <;> simp [write_node, write_node_core, ht]

/-- An application resolved to a hex digit writes that nibble, at every
fuel. -/
theorem write_node_hex_eq {env : Environment} {terms : SMap} {fuel : Nat}
    {heap : List StringPart} {t : TermID} {ns : ExprNodeList} {h : Nat}
    {w : StringWriter} (ht : terms.get? t = some (.Hex h)) :
    write_node env terms fuel heap (.App t ns) w = (w.write_hex h, none) := by
  cases fuel <;> simp [write_node, write_node_core, ht]

/-- An application resolved to `S1` evaluates its first child, at every
fuel. -/
theorem write_node_s1_eq {env : Environment} {terms : SMap} {fuel : Nat}
    {heap : List StringPart} {t : TermID} {n0 : ExprNode} {rest : ExprNodeList}
    {w : StringWriter} (ht : terms.get? t = some .S1) :
    write_node env terms fuel heap (.App t (.cons n0 rest)) w =
      write_node env terms fuel heap n0 w := by
  cases fuel <;> simp [write_node, write_node_core, write_node_core_fst, ht]

/-- An application resolved to `SAdd`, `SCons` or `Ch` sequences its two
children, at every fuel. -/
theorem write_node_bin_eq {env : Environment} {terms : SMap} {fuel : Nat}
    {heap : List StringPart} {t : TermID} {n0 n1 : ExprNode}
    {rest : ExprNodeList} {w : StringWriter} {op : InoutStringType}
    (ht : terms.get? t = some op)
    (hop : op = .SAdd ∨ op = .SCons ∨ op = .Ch) :
    write_node env terms fuel heap (.App t (.cons n0 (.cons n1 rest))) w =
      match write_node env terms fuel heap n0 w with
      | (w1, some e) => (w1, some e)
      | (w1, none) => write_node env terms fuel heap n1 w1 := by
  rcases hop with h | h | h <;> subst h <;> cases fuel <;>
    simp [write_node, write_node_core, write_node_core_both, ht]

/-- One fuel layer of `write_node` is one `write_node_core` layer. -/
theorem write_node_succ_eq (env : Environment) (terms : SMap) (fuel : Nat) :
    write_node_core env terms (write_node env terms fuel) =
      write_node env terms (fuel + 1) :=
  rfl

/-- An application of an unregistered term with a body unfolds: arguments,
then dropped definition-heap entries, then the body head. -/
theorem write_node_unfold_eq {env : Environment} {terms : SMap} {fuel : Nat}
    {heap : List StringPart} {t : TermID} {ns : ExprNodeList} {td : TermData}
    {expr : DefExpr} {w : StringWriter}
    (hterms : terms.get? t = none)
    (htd : env.terms.getD t ⟨"", [], (0, 0), none⟩ = td)
    (hval : td.val = some (some expr)) :
    write_node env terms (fuel + 1) heap (.App t ns) w =
      match write_node_core_parts env terms (write_node env terms fuel) heap ns [] with
      | .error e => (w, some e)
      | .ok args0 =>
        match write_node_defheap (write_node env terms fuel)
            (expr.heap.drop ns.length) args0 with
        | .error e => (w, some e)
        | .ok args1 => write_node env terms fuel args1 expr.head w := by
  simp only [write_node, write_node_core, hterms, htd, hval]

/-- The argument loop of the unfolding arm, on children that each satisfy
the dummy dichotomy: it fails with the dummy error exactly when some child
contains a reachable dummy, and otherwise yields one part per child. -/
theorem write_node_parts_dichotomy (env : Environment) (terms : SMap)
    (fuel : Nat) (heap : List StringPart) :
    ∀ (ns : ExprNodeList) (acc : List StringPart),
      (∀ n, n ∈ ns → ∀ w : StringWriter,
        (HasDummyU env terms n → ∃ w1, write_node env terms (fuel + 1) heap n w =
            (w1, some (.String "Found dummy variable in string definition"))) ∧
        (¬ HasDummyU env terms n →
          ∃ w1, write_node env terms (fuel + 1) heap n w = (w1, none))) →
      ((∃ n, n ∈ ns ∧ HasDummyU env terms n) →
        write_node_core_parts env terms (write_node env terms fuel) heap ns acc =
          .error (.String "Found dummy variable in string definition")) ∧
      (¬ (∃ n, n ∈ ns ∧ HasDummyU env terms n) →
        ∃ parts, write_node_core_parts env terms (write_node env terms fuel)
            heap ns acc = .ok parts ∧
          parts.length = acc.length + ns.length)
  | .nil, acc, _ => by
    constructor
    · rintro ⟨n, hmem, _⟩
      exact absurd hmem (ExprNodeList.not_mem_nil n)
    · intro _
      exact ⟨acc, rfl, by simp [ExprNodeList.length]⟩
  | .cons n ns2, acc, hyp => by
    have hn := hyp n (ExprNodeList.mem_cons_self n ns2)
    by_cases hd : HasDummyU env terms n
    · obtain ⟨w1, h1⟩ := (hn ⟨[], none⟩).1 hd
      constructor
      · intro _
        simp only [write_node_core_parts, write_node_succ_eq, h1]
      · intro hno
        exact absurd ⟨n, ExprNodeList.mem_cons_self n ns2, hd⟩ hno
    · obtain ⟨w1, h1⟩ := (hn ⟨[], none⟩).2 hd
      have IH := write_node_parts_dichotomy env terms fuel heap ns2
        (acc ++ [StringPart.ofWriter w1])
        (fun m hm => hyp m (ExprNodeList.mem_cons_of_mem n m ns2 hm))
      constructor
      · rintro ⟨m, hmem, hdm⟩
        have hm2 : m ∈ ns2 := by
          cases hmem with
          | head => exact absurd hdm hd
          | tail h2 => exact h2
        have hrest := IH.1 ⟨m, hm2, hdm⟩
        simp only [write_node_core_parts, write_node_succ_eq, h1]
        exact hrest
      · intro hno
        have hno2 : ¬ ∃ m, m ∈ ns2 ∧ HasDummyU env terms m := by
          rintro ⟨m, hm, hdm⟩
          exact hno ⟨m, ExprNodeList.mem_cons_of_mem n m ns2 hm, hdm⟩
        obtain ⟨parts, hp, hplen⟩ := IH.2 hno2
        refine ⟨parts, ?_, ?_⟩
        · simp only [write_node_core_parts, write_node_succ_eq, h1]
          exact hp
        · simp only [List.length_append, List.length_singleton,
            ExprNodeList.length] at hplen ⊢
          omega

/-- The definition-heap loop of the unfolding arm, on entries that each
satisfy the dummy dichotomy at their resolution index: it fails with the
dummy error exactly when some entry contains a reachable dummy, and
otherwise extends the resolved list by one part per entry. -/
theorem write_node_defheap_dichotomy (env : Environment) (terms : SMap)
    (fuel : Nat) :
    ∀ (es : List ExprNode) (base : Nat) (acc : List StringPart),
      acc.length = base →
      (∀ (j : Nat) (e : ExprNode), es[j]? = some e →
        ∀ (hp : List StringPart) (w : StringWriter), hp.length = base + j →
        (HasDummyU env terms e → ∃ w1, write_node env terms fuel hp e w =
            (w1, some (.String "Found dummy variable in string definition"))) ∧
        (¬ HasDummyU env terms e →
          ∃ w1, write_node env terms fuel hp e w = (w1, none))) →
      ((∃ e ∈ es, HasDummyU env terms e) →
        write_node_defheap (write_node env terms fuel) es acc =
          .error (.String "Found dummy variable in string definition")) ∧
      (¬ (∃ e ∈ es, HasDummyU env terms e) →
        ∃ parts, write_node_defheap (write_node env terms fuel) es acc =
            .ok parts ∧
          parts.length = base + es.length) := by
  intro es
  induction es with
  | nil =>
    intro base acc hacc _
    constructor
    · rintro ⟨e, he, _⟩
      exact absurd he (List.not_mem_nil e)
    · intro _
      exact ⟨acc, rfl, by simp [hacc]⟩
  | cons e rest ih =>
    intro base acc hacc hyp
    have he := hyp 0 e (by simp) acc ⟨[], none⟩ (by omega)
    by_cases hd : HasDummyU env terms e
    · obtain ⟨w1, h1⟩ := he.1 hd
      constructor
      · intro _
        simp only [write_node_defheap, h1]
      · intro hno
        exact absurd ⟨e, List.mem_cons_self e rest, hd⟩ hno
    · obtain ⟨w1, h1⟩ := he.2 hd
      have IH := ih (base + 1) (acc ++ [StringPart.ofWriter w1]) (by simp [hacc])
        (fun j e2 hj hp w2 hl2 => hyp (j + 1) e2 (by simpa using hj) hp w2 (by omega))
      constructor
      · rintro ⟨x, hx, hdx⟩
        rcases List.mem_cons.mp hx with rfl | hx2
        · exact absurd hdx hd
        · have hrest := IH.1 ⟨x, hx2, hdx⟩
          simp only [write_node_defheap, h1]
          exact hrest
      · intro hno
        have hno2 : ¬ ∃ x ∈ rest, HasDummyU env terms x := by
          rintro ⟨x, hx, hdx⟩
          exact hno ⟨x, List.mem_cons_of_mem e hx, hdx⟩
        obtain ⟨parts, hp2, hplen⟩ := IH.2 hno2
        refine ⟨parts, ?_, ?_⟩
        · simp only [write_node_defheap, h1]
          exact hp2
        · simp only [List.length_cons] at hplen ⊢
          omega

/-- The binary-arm step of the dummy analysis: with children satisfying the
dummy dichotomy, a two-child built-in application fails with the dummy error
exactly when a child contains a reachable dummy, and succeeds otherwise. -/
theorem write_node_evalwf_binary (env : Environment) (terms : SMap)
    (fuel : Nat) {hlen : Nat} (t : TermID) (op : InoutStringType)
    (n0 n1 : ExprNode)
    (ht : terms.get? t = some op)
    (hop : op = .SAdd ∨ op = .SCons ∨ op = .Ch)
    (ih0 : ∀ (heap : List StringPart) (w : StringWriter), heap.length = hlen →
      (HasDummyU env terms n0 → ∃ w1, write_node env terms fuel heap n0 w =
          (w1, some (.String "Found dummy variable in string definition"))) ∧
      (¬ HasDummyU env terms n0 →
        ∃ w1, write_node env terms fuel heap n0 w = (w1, none)))
    (ih1 : ∀ (heap : List StringPart) (w : StringWriter), heap.length = hlen →
      (HasDummyU env terms n1 → ∃ w1, write_node env terms fuel heap n1 w =
          (w1, some (.String "Found dummy variable in string definition"))) ∧
      (¬ HasDummyU env terms n1 →
        ∃ w1, write_node env terms fuel heap n1 w = (w1, none))) :
    ∀ (heap : List StringPart) (w : StringWriter), heap.length = hlen →
      (HasDummyU env terms (.App t (.cons n0 (.cons n1 .nil))) →
        ∃ w1, write_node env terms fuel heap
            (.App t (.cons n0 (.cons n1 .nil))) w =
          (w1, some (.String "Found dummy variable in string definition"))) ∧
      (¬ HasDummyU env terms (.App t (.cons n0 (.cons n1 .nil))) →
        ∃ w1, write_node env terms fuel heap
            (.App t (.cons n0 (.cons n1 .nil))) w = (w1, none)) := by
  intro heap w hl
  rw [write_node_bin_eq ht hop]
  constructor
  · intro hd
    by_cases hd0 : HasDummyU env terms n0
    · obtain ⟨w1, h1⟩ := (ih0 heap w hl).1 hd0
      rw [h1]
      exact ⟨w1, rfl⟩
    · have hd1 : HasDummyU env terms n1 := by
        obtain ⟨n, hmem, hdn⟩ := hasDummyU_registered_elim ht hd
        rcases ExprNodeList.mem_two_elim hmem with rfl | rfl
        · exact absurd hdn hd0
        · exact hdn
      obtain ⟨w1, h1⟩ := (ih0 heap w hl).2 hd0
      obtain ⟨w2, h2⟩ := (ih1 heap w1 hl).1 hd1
      rw [h1]
      exact ⟨w2, h2⟩
  · intro hnd
    have hnd0 : ¬ HasDummyU env terms n0 :=
      fun hh => hnd (HasDummyU.app (ExprNodeList.mem_cons_self _ _) hh)
    have hnd1 : ¬ HasDummyU env terms n1 :=
      fun hh => hnd (HasDummyU.app
        (ExprNodeList.mem_cons_of_mem _ _ _ (ExprNodeList.mem_cons_self _ _)) hh)
    obtain ⟨w1, h1⟩ := (ih0 heap w hl).2 hnd0
    obtain ⟨w2, h2⟩ := (ih1 heap w1 hl).2 hnd1
    rw [h1]
    exact ⟨w2, h2⟩

/-- Over a well-formed node — built-ins at their arities, references in
bounds, unfoldable applications included — `write_node` fails with the
dummy error exactly when the node contains a reachable dummy (also through
definition unfolding), and succeeds otherwise; bytes streamed before a
failure stay in the returned writer. -/
theorem write_node_evalwf (env : Environment) (terms : SMap)
    {fuel hlen : Nat} {e : ExprNode} (hwf : EvalWF env terms fuel hlen e) :
    ∀ (heap : List StringPart) (w : StringWriter), heap.length = hlen →
      (HasDummyU env terms e → ∃ w1, write_node env terms fuel heap e w =
          (w1, some (.String "Found dummy variable in string definition"))) ∧
      (¬ HasDummyU env terms e →
        ∃ w1, write_node env terms fuel heap e w = (w1, none)) := by
  induction hwf with
  | dummy =>
    intro heap w _
    exact ⟨fun _ => ⟨w, write_node_dummy_eq⟩,
           fun hnd => absurd HasDummyU.dummy hnd⟩
  | @ref fuel hlen i hi =>
    intro heap w hl
    constructor
    · intro hd
      exact (nomatch hd)
    · intro _
      have hp : heap[i]? = some (heap.get ⟨i, by omega⟩) :=
        List.getElem?_eq_getElem (by omega)
      refine ⟨w.write_part (heap.get ⟨i, by omega⟩), ?_⟩
      rw [write_node_ref_eq, hp]
  | @s0 fuel hlen t ht =>
    intro heap w _
    constructor
    · intro hd
      obtain ⟨n, hmem, _⟩ := hasDummyU_registered_elim ht hd
      exact absurd hmem (ExprNodeList.not_mem_nil n)
    · intro _
      exact ⟨w, write_node_s0_eq ht⟩
  | @s1 fuel hlen t n0 ht _ ih =>
    intro heap w hl
    constructor
    · intro hd
      have hd0 : HasDummyU env terms n0 := by
        obtain ⟨n, hmem, hdn⟩ := hasDummyU_registered_elim ht hd
        rw [ExprNodeList.mem_one_elim hmem] at hdn
        exact hdn
      obtain ⟨w1, h1⟩ := (ih heap w hl).1 hd0
      exact ⟨w1, by rw [write_node_s1_eq ht]; exact h1⟩
    · intro hnd
      obtain ⟨w1, h1⟩ := (ih heap w hl).2
        (fun hh => hnd (HasDummyU.app (ExprNodeList.mem_cons_self _ _) hh))
      exact ⟨w1, by rw [write_node_s1_eq ht]; exact h1⟩
  | sadd ht _ _ ih0 ih1 =>
    exact write_node_evalwf_binary env terms _ _ _ _ _ ht (Or.inl rfl) ih0 ih1
  | scons ht _ _ ih0 ih1 =>
    exact write_node_evalwf_binary env terms _ _ _ _ _ ht
      (Or.inr (Or.inl rfl)) ih0 ih1
  | ch ht _ _ ih0 ih1 =>
    exact write_node_evalwf_binary env terms _ _ _ _ _ ht
      (Or.inr (Or.inr rfl)) ih0 ih1
  | @hex fuel hlen t h ht =>
    intro heap w _
    constructor
    · intro hd
      obtain ⟨n, hmem, _⟩ := hasDummyU_registered_elim ht hd
      exact absurd hmem (ExprNodeList.not_mem_nil n)
    · intro _
      exact ⟨w.write_hex h, write_node_hex_eq ht⟩
  | @unfold fuel hlen t ns td expr hterms htd hval hargs hdef hhead
      ih_args ih_def ih_head =>
    intro heap w hl
    rw [write_node_unfold_eq hterms htd hval]
    have Hparts := write_node_parts_dichotomy env terms fuel heap ns []
      (fun n hmem w2 => ih_args n hmem heap w2 hl)
    by_cases hargd : ∃ n, n ∈ ns ∧ HasDummyU env terms n
    · rw [Hparts.1 hargd]
      refine ⟨fun _ => ⟨w, rfl⟩, fun hnd => ?_⟩
      obtain ⟨n, hmem, hdn⟩ := hargd
      exact absurd (HasDummyU.app hmem hdn) hnd
    · obtain ⟨args0, hok0, hlen0⟩ := Hparts.2 hargd
      rw [hok0]
      dsimp only
      have hbase : args0.length = ns.length := by simpa using hlen0
      have Hdef := write_node_defheap_dichotomy env terms fuel
        (expr.heap.drop ns.length) ns.length args0 hbase
        (fun j e2 hj hp w2 hl2 => ih_def j e2 hj hp w2 hl2)
      by_cases hdefd : ∃ e2 ∈ expr.heap.drop ns.length, HasDummyU env terms e2
      · rw [Hdef.1 hdefd]
        refine ⟨fun _ => ⟨w, rfl⟩, fun hnd => ?_⟩
        obtain ⟨e2, hmem, hd2⟩ := hdefd
        exact absurd (HasDummyU.defheap hterms htd hval hmem hd2) hnd
      · obtain ⟨args1, hok1, hlen1⟩ := Hdef.2 hdefd
        rw [hok1]
        dsimp only
        have Hh := ih_head args1 w (by omega)
        constructor
        · intro hd
          rcases hasDummyU_app_cases hterms htd hval hd with hc | hc | hc
          · exact absurd hc hargd
          · exact absurd hc hdefd
          · exact Hh.1 hc
        · intro hnd
          exact Hh.2 (fun hh => hnd (HasDummyU.head hterms htd hval hh))

/-- The statement-heap loop on well-formed entries: it fails with the dummy
error exactly when some entry contains a reachable dummy, and otherwise
resolves every entry into a part. -/
theorem write_output_heap_wf (env : Environment) (terms : SMap) (fuel : Nat) :
    ∀ (hs : List ExprNode) (n : Nat), StmtHeapWF env terms fuel n hs →
      ∀ (args : List StringPart), args.length = n →
      ((∃ e ∈ hs, HasDummyU env terms e) →
        write_output_heap env terms fuel hs args =
          .error (.String "Found dummy variable in string definition")) ∧
      (¬(∃ e ∈ hs, HasDummyU env terms e) →
        ∃ parts, write_output_heap env terms fuel hs args = .ok parts ∧
          parts.length = n + hs.length) := by
  intro hs n hwf
  induction hwf with
  | nil =>
    intro args hl
    constructor
    · rintro ⟨e, he, _⟩
      exact absurd he (List.not_mem_nil e)
    · intro _
      exact ⟨args, rfl, by simp [hl]⟩
  | @cons n e rest hbwf _ ih =>
    intro args hl
    by_cases hde : HasDummyU env terms e
    · obtain ⟨w1, h1⟩ := (write_node_evalwf env terms hbwf args ⟨[], none⟩ hl).1 hde
      constructor
      · intro _
        simp [write_output_heap, h1]
      · intro hno
        exact absurd ⟨e, by simp, hde⟩ hno
    · obtain ⟨w1, h1⟩ := (write_node_evalwf env terms hbwf args ⟨[], none⟩ hl).2 hde
      have hlen1 : (args ++ [StringPart.ofWriter w1]).length = n + 1 := by
        simp [hl]
      have IH := ih (args ++ [StringPart.ofWriter w1]) hlen1
      constructor
      · rintro ⟨x, hx, hdx⟩
        rcases List.mem_cons.mp hx with rfl | hx2
        · exact absurd hdx hde
        · have hrest := IH.1 ⟨x, hx2, hdx⟩
          simp [write_output_heap, h1, hrest]
      · intro hno
        have hno2 : ¬(∃ x ∈ rest, HasDummyU env terms x) := by
          rintro ⟨x, hx, hdx⟩
          exact hno ⟨x, List.mem_cons_of_mem _ hx, hdx⟩
        obtain ⟨parts, hp, hplen⟩ := IH.2 hno2
        refine ⟨parts, by simp [write_output_heap, h1, hp], ?_⟩
        simp only [List.length_cons]
        omega

/-- The root loop on well-formed expressions: a reachable dummy anywhere
among the roots makes it fail with the dummy error. -/
theorem write_output_exprs_wf (env : Environment) (terms : SMap) (fuel : Nat)
    (args : List StringPart) :
    ∀ (es : List ExprNode) (w : StringWriter),
      (∀ e ∈ es, EvalWF env terms fuel args.length e) →
      (∃ e ∈ es, HasDummyU env terms e) →
      ∃ w1, write_output_exprs env terms fuel args es w =
        (w1, some (.String "Found dummy variable in string definition")) := by
  intro es
  induction es with
  | nil =>
    rintro w _ ⟨e, he, _⟩
    exact absurd he (List.not_mem_nil e)
  | cons e rest ih =>
    intro w hwf hdummy
    by_cases hde : HasDummyU env terms e
    · obtain ⟨w1, h1⟩ :=
        (write_node_evalwf env terms (hwf e (by simp)) args w rfl).1 hde
      exact ⟨w1, by simp [write_output_exprs, h1]⟩
    · obtain ⟨w1, h1⟩ :=
        (write_node_evalwf env terms (hwf e (by simp)) args w rfl).2 hde
      have hrest : ∃ x ∈ rest, HasDummyU env terms x := by
        rcases hdummy with ⟨x, hx, hdx⟩
        rcases List.mem_cons.mp hx with rfl | hx2
        · exact absurd hdx hde
        · exact ⟨x, hx2, hdx⟩
      obtain ⟨w2, h2⟩ := ih w1 (fun x hx => hwf x (List.mem_cons_of_mem _ hx)) hrest
      exact ⟨w2, by simp [write_output_exprs, h1, h2]⟩

/-- C5 counterexample to the zero-bytes part: the single root
`sadd (s1 (ch x4 x2)) Dummy` fails with the dummy error, but the byte `0x42`
streamed before the dummy was reached remains in the sink — the statement
does not produce zero bytes. -/
theorem c5_zero_bytes_cex :
    write_output_string testEnv testMap 0 ⟨[], none⟩ []
      [.App 2 (.ofList [.App 1 (.ofList [.App 3 (.ofList [.App 8 .nil, .App 6 .nil])]),
        .Dummy])] =
      ((⟨[0x42], none⟩ : StringWriter),
        some (.String "Found dummy variable in string definition")) ∧
    ([0x42] : List Nat) ≠ [] :=
  ⟨rfl, by decide⟩

/-- C5 (amended): for every well-formed output statement whose heap or root
expressions contain a dummy node anywhere — among sub-nodes reached by
recursion, and also inside the definition-heap entries and bodies reached by
definition unfolding — `write_output_string` fails with the DummyNotAllowed
error; bytes streamed to the sink before the dummy is reached remain written
(zero bytes only when the dummy is reached before any byte is emitted). -/
theorem c5_dummy_always_fails_amended (env : Environment) (terms : SMap)
    (fuel : Nat) (heap : List ExprNode) (exprs : List ExprNode) (w : StringWriter)
    (hheap : StmtHeapWF env terms fuel 0 heap)
    (hexprs : ∀ e ∈ exprs, EvalWF env terms fuel heap.length e)
    (hdummy : (∃ e ∈ heap, HasDummyU env terms e) ∨
      (∃ e ∈ exprs, HasDummyU env terms e)) :
    ∃ w1, write_output_string env terms fuel w heap exprs =
      (w1, some (.String "Found dummy variable in string definition")) := by
  have H := write_output_heap_wf env terms fuel heap 0 hheap [] rfl
  by_cases hd : ∃ e ∈ heap, HasDummyU env terms e
  · have h1 := H.1 hd
    exact ⟨w, by simp [write_output_string, h1]⟩
  · obtain ⟨parts, hp, hplen⟩ := H.2 hd
    have hdex : ∃ e ∈ exprs, HasDummyU env terms e := hdummy.resolve_left hd
    have hexprs2 : ∀ e ∈ exprs, EvalWF env terms fuel parts.length e := by
      intro e he
      have hpl : parts.length = heap.length := by omega
      rw [hpl]
      exact hexprs e he
    obtain ⟨w1, h1⟩ := write_output_exprs_wf env terms fuel parts exprs w hexprs2 hdex
    exact ⟨w1, by simp [write_output_string, hp, h1]⟩

/-- C5 witness: the amended theorem applied to a statement-level dummy (root
`sadd (s1 (ch x4 x2)) Dummy`) and to a dummy reached only by definition
unfolding (root `wit`, term 24, whose definition body is a dummy). -/
theorem c5_dummy_always_fails_amended_witness :
    (∃ w1, write_output_string testEnv testMap 0 ⟨[], none⟩ []
      [.App 2 (.ofList [.App 1 (.ofList [.App 3 (.ofList [.App 8 .nil, .App 6 .nil])]),
        .Dummy])] =
      (w1, some (.String "Found dummy variable in string definition"))) ∧
    (∃ w1, write_output_string testEnv testMap 1 ⟨[], none⟩ [] [.App 24 .nil] =
      (w1, some (.String "Found dummy variable in string definition"))) := by
  constructor
  · refine c5_dummy_always_fails_amended testEnv testMap 0 [] _ ⟨[], none⟩
      StmtHeapWF.nil ?_ ?_
    · intro e he
      simp only [List.mem_singleton] at he
      subst he
      exact EvalWF.sadd rfl
        (EvalWF.s1 rfl (EvalWF.ch rfl (EvalWF.hex rfl) (EvalWF.hex rfl)))
        EvalWF.dummy
    · exact Or.inr ⟨_, List.mem_singleton_self _,
        HasDummyU.app (ExprNodeList.Mem.tail ExprNodeList.Mem.head) HasDummyU.dummy⟩
  · refine c5_dummy_always_fails_amended testEnv testMap 1 [] _ ⟨[], none⟩
      StmtHeapWF.nil ?_ ?_
    · intro e he
      simp only [List.mem_singleton] at he
      subst he
      exact EvalWF.unfold rfl rfl rfl
        (fun n h => absurd h (ExprNodeList.not_mem_nil n))
        (fun j e2 h => nomatch h)
        EvalWF.dummy
    · exact Or.inr ⟨_, List.mem_singleton_self _,
        HasDummyU.head rfl rfl rfl HasDummyU.dummy⟩

/-! ## Claim C8: canonical form of built segment sequences -/

/-- Anything may directly precede a non-literal segment. -/
theorem okAdj_of_right_not_lit (a x : StringSeg) (hx : segIsLit x = false) :
    okAdj a x = true := by
  cases a <;> cases x <;> simp_all [segIsLit, okAdj]

/-- A non-literal segment may directly precede a literal byte run. -/
theorem okAdj_right_str (a : StringSeg) (ha : segIsLit a = false) (s : List Nat) :
    okAdj a (.Str s) = true := by
  cases a <;> simp_all [segIsLit, okAdj]

/-- Anything but a lone nibble may directly precede a lone nibble. -/
theorem okAdj_right_hex (a : StringSeg) (ha : segIsLit a = false) (h : Nat) :
    okAdj a (.Hex h) = true := by
  cases a <;> simp_all [segIsLit, okAdj]

/-- Appending one segment whose adjacency with the current last segment is
allowed preserves `noBadAdj`. -/
theorem noBadAdj_append (l : List StringSeg) (x : StringSeg)
    (hl : noBadAdj l = true)
    (hx : ∀ a, l.getLast? = some a → okAdj a x = true) :
    noBadAdj (l ++ [x]) = true := by
  induction l with
  | nil => simp [noBadAdj]
  | cons a rest ih =>
    cases rest with
    | nil =>
      have := hx a (by simp)
      simp [noBadAdj, this]
    | cons b rest2 =>
      have h1 : okAdj a b = true := by
        simp [noBadAdj] at hl
        exact hl.1
      have h2 : noBadAdj (b :: rest2) = true := by
        simp [noBadAdj] at hl
        simp [noBadAdj, hl.2]
      have h3 := ih h2 (fun c hc => hx c (by rw [List.getLast?_cons_cons]; exact hc))
      simpa [noBadAdj, h1] using h3

/-- Appending a non-literal segment always preserves `noBadAdj`. -/
theorem noBadAdj_append_nonlit (l : List StringSeg) (x : StringSeg)
    (hl : noBadAdj l = true) (hx : segIsLit x = false) :
    noBadAdj (l ++ [x]) = true :=
  noBadAdj_append l x hl (fun a _ => okAdj_of_right_not_lit a x hx)

/-- Flushing a builder whose finalized list is canonical and ends in a
non-literal segment yields a canonical list: the flush emits at most one
literal run followed by at most one lone nibble. -/
theorem flush_noBadAdj (b : StringSegBuilder)
    (h1 : noBadAdj b.built = true)
    (h2 : ∀ a, b.built.getLast? = some a → segIsLit a = false) :
    noBadAdj b.flush.built = true := by
  have hb1 : noBadAdj
      (if b.str = [] then b.built else b.built ++ [StringSeg.Str b.str]) = true := by
    split
    · exact h1
    · exact noBadAdj_append _ _ h1 (fun a ha => okAdj_right_str a (h2 a ha) _)
  have hlast1 : ∀ h : Nat, ∀ a,
      (if b.str = [] then b.built else b.built ++ [StringSeg.Str b.str]).getLast? =
        some a → okAdj a (.Hex h) = true := by
    intro h a ha
    split at ha
    · exact okAdj_right_hex a (h2 a ha) h
    · rw [List.getLast?_concat] at ha
      cases ha
      rfl
  show noBadAdj (StringSegBuilder.flush b).built = true
  unfold StringSegBuilder.flush
  cases hh : b.hex with
  | none => simpa using hb1
  | some h =>
    simpa using noBadAdj_append _ _ hb1 (hlast1 h)

/-- Each push operation preserves the builder invariant: the finalized list
is canonical and ends (if nonempty) in a non-literal segment. -/
theorem applyOp_inv (b : StringSegBuilder) (op : BuilderOp)
    (h1 : noBadAdj b.built = true)
    (h2 : ∀ a, b.built.getLast? = some a → segIsLit a = false) :
    noBadAdj (applyOp b op).built = true ∧
    (∀ a, (applyOp b op).built.getLast? = some a → segIsLit a = false) := by
  cases op with
  | pushStr s => exact ⟨h1, h2⟩
  | pushHex h =>
    constructor
    · show noBadAdj (StringSegBuilder.push_hex b h).built = true
      unfold StringSegBuilder.push_hex
      cases b.hex <;> simpa using h1
    · show ∀ a, (StringSegBuilder.push_hex b h).built.getLast? = some a → _
      unfold StringSegBuilder.push_hex
      cases b.hex <;> simpa using h2
  | pushSeg seg =>
    cases seg with
    | Str s => exact ⟨h1, h2⟩
    | Hex h =>
      constructor
      · show noBadAdj (StringSegBuilder.push_hex b h).built = true
        unfold StringSegBuilder.push_hex
        cases b.hex <;> simpa using h1
      · show ∀ a, (StringSegBuilder.push_hex b h).built.getLast? = some a → _
        unfold StringSegBuilder.push_hex
        cases b.hex <;> simpa using h2
    | Var s i =>
      refine ⟨noBadAdj_append_nonlit _ _ (flush_noBadAdj b h1 h2) rfl, ?_⟩
      intro a ha
      show segIsLit a = false
      simp only [applyOp, StringSegBuilder.push_seg] at ha
      rw [List.getLast?_concat] at ha
      cases ha
      rfl
    | Term t as =>
      refine ⟨noBadAdj_append_nonlit _ _ (flush_noBadAdj b h1 h2) rfl, ?_⟩
      intro a ha
      show segIsLit a = false
      simp only [applyOp, StringSegBuilder.push_seg] at ha
      rw [List.getLast?_concat] at ha
      cases ha
      rfl

/-- Running any operation sequence preserves the builder invariant. -/
theorem runOps_inv (ops : List BuilderOp) :
    ∀ b : StringSegBuilder,
      noBadAdj b.built = true →
      (∀ a, b.built.getLast? = some a → segIsLit a = false) →
      noBadAdj (runOps ops b).built = true ∧
      (∀ a, (runOps ops b).built.getLast? = some a → segIsLit a = false) := by
  induction ops with
  | nil => intro b h1 h2; exact ⟨h1, h2⟩
  | cons op rest ih =>
    intro b h1 h2
    obtain ⟨g1, g2⟩ := applyOp_inv b op h1 h2
    exact ih (applyOp b op) g1 g2

/-- C8 counterexample: the operation sequence
`push_hex 3; push_seg (Var 0 0); push_hex 5` finishes to a sequence with two
lone-nibble segments, refuting the claimed "at most one lone-nibble segment"
invariant. -/
theorem c8_canonical_cex :
    (runOps [.pushHex 3, .pushSeg (.Var 0 0), .pushHex 5]
        StringSegBuilder.empty).flush.built =
      [.Hex 3, .Var 0 0, .Hex 5] ∧
    ¬ (([StringSeg.Hex 3, .Var 0 0, .Hex 5].countP segIsHex) ≤ 1) :=
  ⟨rfl, by decide⟩

/-- C8 (amended): every sequence finished from any sequence of push
operations is free of forbidden adjacencies: no two adjacent literal-byte
runs, no two adjacent lone nibbles, and no literal run directly after a lone
nibble — but more than one lone-nibble segment can occur (separated by
variable or opaque-term segments), and the heap-slot splicing performed by
`process_node` appends finalized sequences verbatim, which can put two
literal runs side by side; flushed segments are never merged with later
pushes. -/
theorem c8_canonical_amended (ops : List BuilderOp) :
    noBadAdj (runOps ops StringSegBuilder.empty).flush.built = true := by
  have H := runOps_inv ops StringSegBuilder.empty rfl
    (by intro a ha; simp [StringSegBuilder.empty] at ha)
  exact flush_noBadAdj _ H.1 H.2

/-! ## Claim C4: the `scons` alias verification -/

/-- The freshly inserted binding is what `get?` returns. -/
theorem SMap.get?_insert_self (m : SMap) (k : TermID) (v : InoutStringType) :
    (m.insert k v).get? k = some v := by
  simp [SMap.insert, SMap.get?]

/-- Inserting a value other than `SCons` cannot make `get?` return
`SCons`. -/
theorem SMap.get?_insert_ne_scons (m : SMap) (t : TermID) (v : InoutStringType)
    (hv : v ≠ .SCons) (hm : ∀ k, m.get? k ≠ some .SCons) :
    ∀ k, (m.insert t v).get? k ≠ some .SCons := by
  intro k
  simp only [SMap.insert, SMap.get?]
  split
  · exact fun hc => hv (Option.some.inj hc)
  · exact hm k

/-- The hex-digit loop inserts only `Hex` values, so it cannot introduce an
`SCons` binding. -/
theorem insert_hex_terms_no_scons (env : Environment) (s : Sorts) :
    ∀ (rem i : Nat) (m m2 : SMap),
      (∀ k, m.get? k ≠ some .SCons) →
      insert_hex_terms env s i rem m = .ok m2 →
      ∀ k, m2.get? k ≠ some .SCons := by
  intro rem
  induction rem with
  | zero =>
    intro i m m2 hm heq k
    simp only [insert_hex_terms] at heq
    cases heq
    exact hm k
  | succ rem ih =>
    intro i m m2 hm heq k
    simp only [insert_hex_terms] at heq
    cases hct : env.check_term (hexTermName i) [] s.hex false with
    | error e => rw [hct] at heq; exact (nomatch heq)
    | ok t =>
      rw [hct] at heq
      exact ih (i + 1) (m.insert t (.Hex i)) m2
        (SMap.get?_insert_ne_scons m t (.Hex i) (by simp) hm) heq k

/-- The base registry contains no `SCons` binding. -/
theorem new_string_handler_base_no_scons (env : Environment) (s : Sorts) (m : SMap)
    (h : env.new_string_handler_base = .ok (s, m)) :
    ∀ k, m.get? k ≠ some .SCons := by
  unfold Environment.new_string_handler_base at h
  cases h1 : env.new_sorts with
  | error e => rw [h1] at h; exact (nomatch h)
  | ok s1 =>
  rw [h1] at h
  dsimp only at h
  cases h2 : env.check_term "s0" [] s1.str false with
  | error e => rw [h2] at h; exact (nomatch h)
  | ok t0 =>
  rw [h2] at h
  dsimp only at h
  cases h3 : env.check_term "s1" [s1.chr] s1.str false with
  | error e => rw [h3] at h; exact (nomatch h)
  | ok t1 =>
  rw [h3] at h
  dsimp only at h
  cases h4 : env.check_term "sadd" [s1.str, s1.str] s1.str false with
  | error e => rw [h4] at h; exact (nomatch h)
  | ok t2 =>
  rw [h4] at h
  dsimp only at h
  cases h5 : env.check_term "ch" [s1.hex, s1.hex] s1.chr false with
  | error e => rw [h5] at h; exact (nomatch h)
  | ok t3 =>
  rw [h5] at h
  dsimp only at h
  cases h6 : insert_hex_terms env s1 0 16
      (SMap.insert (SMap.insert (SMap.insert (SMap.insert [] t0 .S0) t1 .S1)
        t2 .SAdd) t3 .Ch) with
  | error e => rw [h6] at h; exact (nomatch h)
  | ok m6 =>
  rw [h6] at h
  dsimp only at h
  simp only [Except.ok.injEq, Prod.mk.injEq] at h
  obtain ⟨rfl, rfl⟩ := h
  refine insert_hex_terms_no_scons env s1 16 0 _ m6 ?_ h6
  apply SMap.get?_insert_ne_scons _ _ _ (by simp)
  apply SMap.get?_insert_ne_scons _ _ _ (by simp)
  apply SMap.get?_insert_ne_scons _ _ _ (by simp)
  apply SMap.get?_insert_ne_scons _ _ _ (by simp)
  intro k
  simp [SMap.get?]

/-- The segment comparison of the alias verifier holds exactly for the
canonical two-segment body. -/
theorem is_scons_body_iff (s : Sorts) (ss : List StringSeg) :
    is_scons_body s ss = true ↔ ss = [.Var s.chr 0, .Var s.str 1] := by
  rcases ss with _ | ⟨x, _ | ⟨y, _ | ⟨z, rest⟩⟩⟩
  · simp [is_scons_body]
  · cases x <;> simp [is_scons_body]
  · rcases x with xs | ⟨c, i⟩ | ⟨xt, xa⟩ | xh <;>
      rcases y with ys | ⟨st, j⟩ | ⟨yt, ya⟩ | yh <;>
      try simp [is_scons_body]
    rcases i with _ | i <;> rcases j with _ | (_ | j) <;>
      simp [is_scons_body]
  · simp [is_scons_body]

/-- C4: when the base registry resolves, a term named `scons` with signature
`(char, string) → string` and definition kind is registered as the Cons
built-in if and only if running the segment builder over its body
(`process_def` against the base registry) succeeds with exactly the
two-segment sequence `[Var (char) 0, Var (string) 1]`; every other outcome —
`scons` absent or abstract or mis-sorted (`check_term` fails), evaluation
failure, or any other segment sequence — leaves the term unclassified while
`new_string_handler` still succeeds, raising no error. -/
theorem c4_scons_classification (env : Environment) (s : Sorts) (m0 : SMap)
    (t : TermID)
    (hbase : env.new_string_handler_base = .ok (s, m0)) :
    (env.check_term "scons" [s.chr, s.str] s.str true = .ok t →
      ∃ m, env.new_string_handler = .ok (s, m) ∧
        (m.get? t = some .SCons ↔
          env.process_def m0 t "scons" = .ok [.Var s.chr 0, .Var s.str 1])) ∧
    (∀ e, env.check_term "scons" [s.chr, s.str] s.str true = .error e →
      env.new_string_handler = .ok (s, m0)) := by
  have hnos := new_string_handler_base_no_scons env s m0 hbase
  constructor
  · intro hct
    cases hpd : env.process_def m0 t "scons" with
    | error e =>
      have hh : env.new_string_handler = .ok (s, m0) := by
        simp [Environment.new_string_handler, hbase, hct, hpd]
      refine ⟨m0, hh, ?_, ?_⟩
      · intro hc
        exact absurd hc (hnos t)
      · intro hc
        exact (nomatch hc)
    | ok ss =>
      cases hb : is_scons_body s ss with
      | true =>
        have hh : env.new_string_handler = .ok (s, m0.insert t .SCons) := by
          simp [Environment.new_string_handler, hbase, hct, hpd, hb]
        refine ⟨m0.insert t .SCons, hh, ?_, ?_⟩
        · intro _
          rw [(is_scons_body_iff s ss).mp hb]
        · intro _
          exact SMap.get?_insert_self m0 t .SCons
      | false =>
        have hh : env.new_string_handler = .ok (s, m0) := by
          simp [Environment.new_string_handler, hbase, hct, hpd, hb]
        refine ⟨m0, hh, ?_, ?_⟩
        · intro hc
          exact absurd hc (hnos t)
        · intro hc
          have := (is_scons_body_iff s ss).mpr (Except.ok.inj hc)
          rw [hb] at this
          exact (nomatch this)
  · intro e hct
    simp [Environment.new_string_handler, hbase, hct]

/-- C4 witness: in the test environment the base registry resolves, `scons`
(id 20) passes `check_term`, its body evaluates to exactly
`[Var char 0, Var string 1]`, and it is therefore registered as Cons. -/
theorem c4_scons_classification_witness :
    ∃ m, testEnv.new_string_handler = .ok (testSorts, m) ∧
      m.get? 20 = some .SCons := by
  obtain ⟨m, hm, hiff⟩ :=
    (c4_scons_classification testEnv testSorts testBaseMap 20 rfl).1 rfl
  exact ⟨m, hm, hiff.mpr rfl⟩

end MM0Inout
